import Mathlib

/-!
Shallow embedding of `category_encoders/helmert.py` (class `HelmertEncoder`).

A pandas DataFrame is modelled as an association list of named columns; a
cell is either a raw categorical value (`Sum.inl : String`) or a numeric
value (`Sum.inr : ℚ`).  Floating point arithmetic is modelled over `ℚ`.
External collaborators that are not part of the source file
(`category_encoders.ordinal.OrdinalEncoder`, `category_encoders.utils`,
`patsy.contrasts.Helmert`) are modelled from the specification, as noted
in their doc comments.
-/

namespace Helmert

/-- A cell of a data frame: a raw categorical value or a number. -/
abbrev Val := String ⊕ ℚ

/-- A column: the ordered cell values of one named column. -/
abbrev Col := List Val

/-- A data frame: ordered association list of (column name, column values). -/
abbrev Frame := List (String × Col)

/-- The column names of a frame, in order. -/
def fnames (X : Frame) : List String := X.map Prod.fst

/-- Column lookup, `X[name]`.  In pandas a missing name raises `KeyError`;
the embedding returns `[]` there and theorems carry the presence
precondition instead. -/
def getCol (X : Frame) (nm : String) : Col :=
  match X.find? (fun p => decide (p.1 = nm)) with
  | some p => p.2
  | none => []

/-- Column assignment, `X[name] = col`: replaces the column in place when the
name exists, otherwise appends it at the end (pandas semantics). -/
def setCol (X : Frame) (nm : String) (c : Col) : Frame :=
  if X.any (fun p => decide (p.1 = nm)) then
    X.map (fun p => if p.1 = nm then (nm, c) else p)
  else X ++ [(nm, c)]

/-- Removal of one column by name (all occurrences of the label). -/
def dropCol (X : Frame) (nm : String) : Frame :=
  X.filter (fun p => decide (p.1 ≠ nm))

/-- `X.shape[0]`: the row count, read off the first column (0 for an empty
frame, as for a pandas frame with no columns and default index). -/
def nRows (X : Frame) : Nat :=
  match X with
  | [] => 0
  | c :: _ => c.2.length

/-- Rectangularity: every column has exactly `n` rows. -/
def Rect (X : Frame) (n : Nat) : Prop := ∀ p ∈ X, p.2.length = n

instance (X : Frame) (n : Nat) : Decidable (Rect X n) :=
  List.decidableBAll _ X

/-- The contrast matrix produced by `fit_helmert_coding`: a small DataFrame
whose rows are indexed by the integer codes (as numbers). -/
structure CMat where
  colNames : List String
  rows : List (ℚ × List ℚ)
deriving DecidableEq

/-- Modelled from the spec: the Helmert contrast matrix without intercept
produced by `patsy.contrasts.Helmert().code_without_intercept` (patsy is an
external dependency, absent from the source).  Spec 4.1: a k × (k-1)
matrix where, for contrast column j, rows 0..j hold -1, row j+1 holds j+1
and later rows hold 0. -/
def helmertContrast (k : Nat) : List (List ℚ) :=
  (List.range k).map (fun i => (List.range (k - 1)).map (fun j =>
    if i ≤ j then -1 else if i = j + 1 then ((j + 1 : Nat) : ℚ) else 0))

/-- `HelmertEncoder.fit_helmert_coding` (helmert.py lines 197-206): for fewer
than two levels an empty DataFrame; otherwise the Helmert matrix with its
index shifted to 1..k and a zero row appended under index 0.  Column names
are modelled from the spec (4.1: positional indices 0..k-2), since patsy's
naming is not in the source. -/
def fit_helmert_coding (values : List ℚ) : CMat :=
  if values.length < 2 then { colNames := [], rows := [] }
  else
    { colNames := (List.range (values.length - 1)).map (fun i => toString i)
      rows := (helmertContrast values.length).enum.map
                (fun p => (((p.1 + 1 : Nat) : ℚ), p.2))
              ++ [((0 : ℚ), List.replicate (values.length - 1) 0)] }

/-- The generated column name `str(col) + '_%d' % i`. -/
def genName (col : String) (i : Nat) : String := col ++ "_" ++ toString i

/-- The generated column names of one mapping entry, in order. -/
def genNames (col : String) (m : Nat) : List String :=
  (List.range m).map (fun i => genName col i)

/-- `mod[c].loc[code]`: the entry of contrast column `i` at the row indexed by
the code held in the cell.  Codes outside the matrix index are a caller
error per spec 4.2 (pandas would raise); the embedding returns 0 there and
theorems only ever evaluate in-range codes. -/
def modEntry (mod : CMat) (v : Val) (i : Nat) : Val :=
  match v with
  | Sum.inr q =>
      Sum.inr ((((mod.rows.find? (fun r => decide (r.1 = q))).map Prod.snd).getD
        (List.replicate mod.colNames.length 0)).getD i 0)
  | Sum.inl _ => Sum.inr 0

/-- The in-place splice `cols[idx:idx+1] = new_columns` at the first
occurrence of `col` (Python `list.index` + slice assignment). -/
def spliceCol (cols : List String) (col : String) (newCols : List String) : List String :=
  match cols with
  | [] => []
  | c :: rest => if c = col then newCols ++ rest else c :: spliceCol rest col newCols

/-- One iteration of the mapping loop of `helmert_coding` (lines 219-229):
adds the generated contrast columns of one mapping entry to the frame and
splices their names into the running column-name list. -/
def addContrast (st : Frame × List String) (sw : String × CMat) : Frame × List String :=
  let col := sw.1
  let mod := sw.2
  let Xout := (List.range mod.colNames.length).foldl
    (fun acc i => setCol acc (genName col i)
      ((getCol acc col).map (fun v => modEntry mod v i))) st.1
  (Xout, spliceCol st.2 col (genNames col mod.colNames.length))

/-- `HelmertEncoder.helmert_coding` (lines 208-233): copy the frame, record
the incoming column order, add an all-ones `intercept` column, add the
generated contrast columns per mapping entry while splicing the name list,
then reindex to `['intercept'] + cols`. -/
def helmert_coding (Xin : Frame) (mapping : List (String × CMat)) : Frame :=
  let cols0 := fnames Xin
  let X1 := setCol Xin "intercept" (List.replicate (nRows Xin) (Sum.inr 1))
  let st := mapping.foldl addContrast (X1, cols0)
  ("intercept" :: st.2).map (fun nm => (nm, getCol st.1 nm))

/-- Set of transform-time errors raised by the encoder. -/
inductive TErr where
  | notFitted
  | dimMismatch (got expected : Nat)
  | dropMissing (col : String)
  | trialNotFrame
deriving DecidableEq

/-- The drop loop of `transform` (lines 188-190): `X.drop(col, 1,
inplace=True)` for each listed column.  pandas `drop` raises `KeyError`
when the label is absent (its default `errors='raise'`). -/
def applyDrop (X : Frame) (cols : List String) : Except TErr Frame :=
  match cols with
  | [] => .ok X
  | c :: rest =>
      if c ∈ fnames X then applyDrop (dropCol X c) rest
      else .error (.dropMissing c)

/-- `X.values`: the row-major numeric array view of the frame. -/
def valuesOf (X : Frame) : List (List Val) :=
  (List.range (nRows X)).map (fun i => X.map (fun p => p.2.getD i (Sum.inr 0)))

/-- The numeric content of a cell, used by the variance computation. -/
def toNum (v : Val) : Option ℚ :=
  match v with
  | Sum.inr q => some q
  | Sum.inl _ => none

/-- pandas `Series.var()`: sample variance with `ddof=1` over the numeric
values; `none` models the `NaN` result for fewer than two values. -/
def pandasVar (c : Col) : Option ℚ :=
  let qs := c.filterMap toNum
  if qs.length < 2 then none
  else
    some (((qs.map (fun x => (x - qs.sum / (qs.length : ℚ)) ^ 2)).sum)
      / ((qs.length : ℚ) - 1))

/-- The filter condition `X_temp[x].var() <= t` of fit line 151; a `NaN`
variance compares false. -/
def dropFlag (c : Col) (t : ℚ) : Bool :=
  match pandasVar c with
  | some v => decide (v ≤ t)
  | none => false

/-- Modelled from the spec: `util.get_generated_cols` (utils.py is absent
from the source).  Spec 4.3: the column names present in the
trial-transformed frame but not in the original frame. -/
def generatedCols (X Xt : Frame) : List String :=
  (fnames Xt).filter (fun n => decide (n ∉ fnames X))

/-- Modelled from the spec: `util.get_obj_cols` — the auto-detected
non-numeric (object-dtype) columns, i.e. those holding at least one raw
string cell. -/
def objCols (X : Frame) : List String :=
  X.filterMap (fun p => if p.2.any (fun v => v.isLeft) then some p.1 else none)

/-- Helper for `firstOccur`: keeps each value not already seen. -/
def foAux (l : List Val) (seen : List Val) : List Val :=
  match l with
  | [] => []
  | a :: rest =>
      if seen.any (fun v => decide (v = a)) then foAux rest seen
      else a :: foAux rest (a :: seen)

/-- Modelled from the spec: the category inventory fitted by the external
`OrdinalEncoder` for one column — the distinct values in order of first
occurrence (spec 3: the ordered sequence of distinct values observed). -/
def firstOccur (l : List Val) : List Val := foAux l []

/-- Modelled from the spec: the fitted value→code mapping of one column —
consecutive integer codes starting at 1 (spec 3: offset 1, code 0 reserved
for unknown/missing). -/
def ordinalFit (c : Col) : List (Val × ℚ) :=
  (firstOccur c).enum.map (fun p => (p.2, ((p.1 + 1 : Nat) : ℚ)))

/-- Modelled from the spec: code resolution at transform time — the fitted
code of the value, or 0 for a value unseen at fit time (spec: the `impute`
policy maps unknowns to code 0, the all-zero contrast row). -/
def codeFor (m : List (Val × ℚ)) (v : Val) : ℚ :=
  match m.find? (fun p => decide (p.1 = v)) with
  | some p => p.2
  | none => 0

/-- Modelled from the spec: `OrdinalEncoder.transform` — each fitted column's
values are replaced by their integer codes; other columns are untouched and
the column order is preserved. -/
def ordinalTransform (om : List (String × List (Val × ℚ))) (X : Frame) : Frame :=
  X.map (fun p =>
    match om.find? (fun q => decide (q.1 = p.1)) with
    | some q => (p.1, p.2.map (fun v => Sum.inr (codeFor q.2 v)))
    | none => p)

/-- The constructor arguments of `HelmertEncoder.__init__` that affect the
transformation (`verbose` has no functional effect; `handle_unknown` is
fixed to its default `impute` in the resolver model). -/
structure Config where
  cols : Option (List String)
  drop_invariant : Bool
  return_df : Bool
deriving DecidableEq

/-- The mutable fitted state of a `HelmertEncoder` instance. -/
structure Encoder where
  cols : List String
  ordinal : List (String × List (Val × ℚ))
  mapping : List (String × CMat)
  drop_invariant : Bool
  drop_cols : List String
  return_df : Bool
  dim : Option Nat
deriving DecidableEq

instance : Inhabited Encoder :=
  ⟨{ cols := [], ordinal := [], mapping := [], drop_invariant := false,
     drop_cols := [], return_df := true, dim := none }⟩

/-- A freshly constructed, unfitted encoder. -/
def initEncoder (cfg : Config) : Encoder :=
  { cols := cfg.cols.getD [], ordinal := [], mapping := [],
    drop_invariant := cfg.drop_invariant, drop_cols := [],
    return_df := cfg.return_df, dim := none }

/-- The result of `transform`: a data frame when `return_df`, else the raw
`.values` array. -/
abbrev TOut := Frame ⊕ List (List Val)

/-- `HelmertEncoder.transform` (lines 155-195): not-fitted check, dimension
check, pass-through when no target columns, ordinal encoding, column
expansion, invariant-column drop, and the `return_df` branch. -/
def transform (e : Encoder) (X : Frame) : Except TErr TOut :=
  match e.dim with
  | none => .error .notFitted
  | some d =>
    if X.length = d then
      if e.cols = [] then .ok (.inl X)
      else
        let X2 := helmert_coding (ordinalTransform e.ordinal X) e.mapping
        match (if e.drop_invariant then applyDrop X2 e.drop_cols else .ok X2) with
        | .error err => .error err
        | .ok X3 => .ok (if e.return_df then .inl X3 else .inr (valuesOf X3))
    else .error (.dimMismatch X.length d)

/-- The state of the encoder after `fit` lines 118-145, before the
invariant-drop computation: recorded dimension, resolved target columns,
fitted ordinal mapping and per-column contrast matrices. -/
def fitBase (cfg : Config) (X : Frame) : Encoder :=
  let tcols := match cfg.cols with
    | some cs => cs
    | none => objCols X
  let om := tcols.map (fun c => (c, ordinalFit (getCol X c)))
  { cols := tcols
    ordinal := om
    mapping := om.map (fun p => (p.1, fit_helmert_coding (p.2.map Prod.snd)))
    drop_invariant := cfg.drop_invariant
    drop_cols := []
    return_df := cfg.return_df
    dim := some X.length }

/-- `HelmertEncoder.fit` (lines 97-153).  With `drop_invariant` the trial
transform runs with an empty drop list and the drop list is the generated
columns whose variance is at most the literal `10e-5`; when the trial
transform yields a raw array (`return_df=False`) the subsequent column
access in fit fails (`.trialNotFrame` models that `AttributeError`). -/
def fit (cfg : Config) (X : Frame) : Except TErr Encoder :=
  let e0 := fitBase cfg X
  if cfg.drop_invariant then
    match transform e0 X with
    | .ok (.inl Xt) =>
        .ok { e0 with
          drop_cols := (generatedCols X Xt).filter (fun g => dropFlag (getCol Xt g) (10 / 100000)) }
    | .ok (.inr _) => .error .trialNotFrame
    | .error err => .error err
  else .ok e0

/-- The per-name column replacement described by the spec (4.2): each mapped
column is replaced in place by its generated contrast columns, every other
column is kept; used to characterise the order produced by the splice loop. -/
def expandNames (M : List (String × CMat)) : List String → List String
  | [] => []
  | x :: rest =>
      (match M.find? (fun m => decide (m.1 = x)) with
       | some m => genNames x m.2.colNames.length
       | none => [x]) ++ expandNames M rest

/-- All generated column names of a mapping, in mapping order. -/
def allGen (M : List (String × CMat)) : List String :=
  M.foldr (fun m acc => genNames m.1 m.2.colNames.length ++ acc) []

/-- The three-level contrast matrix `fit_helmert_coding [1, 2, 3]`. -/
def M3 : CMat :=
  { colNames := ["0", "1"], rows := [(1, [-1, -1]), (2, [1, -1]), (3, [0, 2]), (0, [0, 0])] }

/-- Concrete input frame for the drop-threshold analysis: one categorical
column with the level "a" once, "b" once and "c" 19999 times, so that the
generated column D_0 has sample variance exactly 2/20000 = 1/10000. -/
def XC1 : Frame := [("D", Sum.inl "a" :: Sum.inl "b" :: List.replicate 19999 (Sum.inl "c"))]

/-- Configuration with invariant dropping enabled. -/
def cfgC1 : Config := { cols := some ["D"], drop_invariant := true, return_df := true }

/-- The trial-transformed frame `fit` computes internally for `XC1`. -/
def XtC1 : Frame :=
  [("intercept", List.replicate 20001 (Sum.inr 1)),
   ("D_0", Sum.inr (-1) :: Sum.inr 1 :: List.replicate 19999 (Sum.inr 0)),
   ("D_1", Sum.inr (-1) :: Sum.inr (-1) :: List.replicate 19999 (Sum.inr 2))]

/-- The encoder produced by fitting `cfgC1` on `XC1`. -/
def eC1 : Encoder := { fitBase cfgC1 XC1 with drop_cols := ["intercept", "D_0"] }

/-- Small fit input for the drop-list witness. -/
def XW1 : Frame := [("D", [Sum.inl "a", Sum.inl "b"])]

/-- Configuration for the drop-list witness. -/
def cfgW1 : Config := { cols := some ["D"], drop_invariant := true, return_df := true }

/-- The trial-transformed frame for `XW1`. -/
def XtW1 : Frame :=
  [("intercept", [Sum.inr 1, Sum.inr 1]), ("D_0", [Sum.inr (-1), Sum.inr 1])]

/-- The encoder produced by fitting `cfgW1` on `XW1` (only the constant
`intercept` column is invariant there). -/
def eW1 : Encoder := { fitBase cfgW1 XW1 with drop_cols := ["intercept"] }

/-- Concrete frame for the drop-idempotence analysis. -/
def XC4 : Frame := [("A", [Sum.inr 1]), ("g", [Sum.inr 2])]

/-- `XC4` after its column `g` has been dropped once. -/
def YC4 : Frame := [("A", [Sum.inr 1])]

/-- Configuration with no target columns and `return_df=False`. -/
def cfgC5 : Config := { cols := some [], drop_invariant := false, return_df := false }

/-- Concrete one-column numeric frame. -/
def XC5 : Frame := [("A", [Sum.inr 1])]

/-- The encoder produced by fitting `cfgC5` on `XC5`. -/
def eC5 : Encoder := fitBase cfgC5 XC5

/-! Basic lemmas about the frame operations. -/

theorem getCol_nil (nm : String) : getCol [] nm = [] := rfl

theorem getCol_cons (a nm : String) (c : Col) (rest : Frame) :
    getCol ((a, c) :: rest) nm = if a = nm then c else getCol rest nm := by
  by_cases h : a = nm
  · simp [getCol, List.find?_cons_of_pos, h]
  · simp only [getCol, if_neg h]
    rw [List.find?_cons_of_neg]
    simp [h]

theorem rect_getCol (X : Frame) (n : Nat) (nm : String)
    (hr : Rect X n) (h : nm ∈ fnames X) : (getCol X nm).length = n := by
  induction X with
  | nil => simp [fnames] at h
  | cons p rest ih =>
    obtain ⟨a, c⟩ := p
    rw [getCol_cons]
    by_cases hx : a = nm
    · simpa [hx] using hr (a, c) (by simp)
    · rw [if_neg hx]
      have h2 : nm ∈ fnames rest := by
        simp only [fnames, List.map_cons, List.mem_cons] at h
        rcases h with h1 | h1
        · exact absurd h1.symm hx
        · exact h1
      exact ih (fun q hq => hr q (by simp [hq])) h2

/-! Claim theorems, easy group. -/

/-- Claim C7: transform on an encoder that has not been fitted (no recorded
dimension) fails immediately with the not-fitted error, for every input. -/
theorem transform_before_fit_errors (e : Encoder) (X : Frame)
    (h : e.dim = none) : transform e X = .error .notFitted := by
  simp [transform, h]

/-- Witness for C7 at a freshly constructed encoder and a concrete frame. -/
theorem transform_before_fit_errors_witness :
    transform (initEncoder { cols := none, drop_invariant := false, return_df := true })
      [("A", [Sum.inr 1])] = .error .notFitted :=
  transform_before_fit_errors _ _ rfl

/-- Claim C8: transform on a fitted encoder fails immediately with the
dimension-mismatch error whenever the input column count differs from the
recorded dimension. -/
theorem transform_dim_mismatch_errors (e : Encoder) (X : Frame) (d : Nat)
    (h1 : e.dim = some d) (h2 : X.length ≠ d) :
    transform e X = .error (.dimMismatch X.length d) := by
  simp [transform, h1, h2]

/-- Witness for C8: an encoder fitted with dimension 2 rejects a one-column
frame. -/
theorem transform_dim_mismatch_errors_witness :
    transform { cols := ["A"], ordinal := [], mapping := [], drop_invariant := false,
                drop_cols := [], return_df := true, dim := some 2 }
      [("A", [Sum.inr 1])] = .error (.dimMismatch 1 2) :=
  transform_dim_mismatch_errors _ _ 2 rfl (by decide)

/-- Counterexample to claim C2 as stated: for a single level (k = 1) the
builder returns an empty matrix with 0 rows, not k+1 = 2 rows. -/
theorem contrast_rows_counterexample :
    ¬ ((fit_helmert_coding [1]).rows.length = [(1 : ℚ)].length + 1) := by
  decide

theorem find?_append_of_none {α : Type} (p : α → Bool) (l1 l2 : List α)
    (h : ∀ x ∈ l1, p x = false) : (l1 ++ l2).find? p = l2.find? p := by
  induction l1 with
  | nil => simp
  | cons a l ih =>
    have ha : p a = false := h a (by simp)
    rw [List.cons_append, List.find?_cons_of_neg _ (by simp [ha])]
    exact ih (fun x hx => h x (by simp [hx]))

/-- Claim C2 (amended): the contrast matrix always has max(k-1,0) columns;
for k at least 2 it has k+1 rows, with the row indexed 0 identically zero;
for k below 2 it is empty (0 rows). -/
theorem contrast_matrix_shape (values : List ℚ) :
    (((fit_helmert_coding values).colNames.length : Int) = ((values.length : Int) - 1) ⊔ 0) ∧
    (2 ≤ values.length →
      (fit_helmert_coding values).rows.length = values.length + 1 ∧
      (fit_helmert_coding values).rows.find? (fun r => decide (r.1 = 0)) =
        some (0, List.replicate (values.length - 1) 0)) ∧
    (values.length < 2 → (fit_helmert_coding values).rows = []) := by
  refine ⟨?_, ?_, ?_⟩
  · rcases Nat.lt_or_ge values.length 2 with h | h
    · have he : (fit_helmert_coding values).colNames = [] := by
        simp [fit_helmert_coding, if_pos h]
      rw [he]
      simp only [List.length_nil, Nat.cast_zero]
      omega
    · have hn : ¬ values.length < 2 := by omega
      have he : (fit_helmert_coding values).colNames.length = values.length - 1 := by
        simp [fit_helmert_coding, if_neg hn]
      rw [he]
      omega
  · intro h
    have hn : ¬ values.length < 2 := by omega
    constructor
    · simp only [fit_helmert_coding, if_neg hn]
      simp [helmertContrast, List.enum_length]
    · simp only [fit_helmert_coding, if_neg hn]
      rw [find?_append_of_none]
      · simp
      · intro x hx
        simp only [List.mem_map] at hx
        obtain ⟨p, _, hp⟩ := hx
        subst hp
        simp only [decide_eq_false_iff_not]
        exact_mod_cast (Nat.cast_add_one_ne_zero p.1 : ((p.1 : ℚ) + 1 ≠ 0))
  · intro h
    simp [fit_helmert_coding, if_pos h]

/-- Witness for C2 at a three-level list. -/
theorem contrast_matrix_shape_witness :
    ((fit_helmert_coding [5, 7, 9]).colNames.length : Int) = 2 ∧
    (fit_helmert_coding [5, 7, 9]).rows.length = 4 := by
  have h := contrast_matrix_shape [5, 7, 9]
  exact ⟨by simpa using h.1, by simpa using (h.2.1 (by decide)).1⟩

/-- Claim C10: the contrast matrix built by `fit_helmert_coding` depends only
on the number of levels: equal-length level lists give identical matrices
(entries and column names). -/
theorem contrast_depends_only_on_count (v1 v2 : List ℚ)
    (h : v1.length = v2.length) : fit_helmert_coding v1 = fit_helmert_coding v2 := by
  simp only [fit_helmert_coding, h]

/-- Witness for C10 at two different two-level lists. -/
theorem contrast_depends_only_on_count_witness :
    fit_helmert_coding [5, 7] = fit_helmert_coding [1, 2] :=
  contrast_depends_only_on_count [5, 7] [1, 2] rfl

theorem mem_fnames_dropCol {X : Frame} {nm c : String}
    (h1 : nm ∈ fnames X) (h2 : nm ≠ c) : nm ∈ fnames (dropCol X c) := by
  induction X with
  | nil => simp [fnames] at h1
  | cons p rest ih =>
    simp only [fnames, List.map_cons, List.mem_cons] at h1
    by_cases hp : p.1 = c
    · have hcons : dropCol (p :: rest) c = dropCol rest c := by
        simp [dropCol, List.filter_cons, hp]
      rcases h1 with h1 | h1
      · exact absurd (h1 ▸ hp) h2
      · rw [hcons]
        exact ih h1
    · have hcons : dropCol (p :: rest) c = p :: dropCol rest c := by
        simp [dropCol, List.filter_cons, hp]
      rw [hcons]
      simp only [fnames, List.map_cons, List.mem_cons]
      rcases h1 with h1 | h1
      · exact Or.inl h1
      · exact Or.inr (ih h1)

/-- Counterexample to claim C4 as stated: after the drop list `["g"]` has been
applied once, applying it a second time (the column now absent) raises the
missing-column error instead of removing nothing. -/
theorem apply_drop_second_errors :
    applyDrop XC4 ["g"] = .ok YC4 ∧
    applyDrop YC4 ["g"] = .error (.dropMissing "g") := by
  exact ⟨rfl, rfl⟩

/-- Claim C4 (amended): a single application of the drop list removes exactly
the listed columns when each is present (as transform guarantees for its
frozen drop list); but the operation is not defensive: a listed column that
is absent — in particular on a second application — raises an error. -/
theorem applyDrop_removes_present (X : Frame) (cols : List String)
    (hnd : cols.Nodup) (hsub : ∀ c ∈ cols, c ∈ fnames X) :
    applyDrop X cols = .ok (X.filter (fun p => decide (p.1 ∉ cols))) := by
  induction cols generalizing X with
  | nil =>
    simp only [applyDrop]
    congr 1
    symm
    rw [List.filter_eq_self]
    intro a _
    simp
  | cons c rest ih =>
    have hc : c ∈ fnames X := hsub c (by simp)
    have hcr : c ∉ rest := (List.nodup_cons.mp hnd).1
    have hnd' : rest.Nodup := (List.nodup_cons.mp hnd).2
    have hsub' : ∀ c' ∈ rest, c' ∈ fnames (dropCol X c) := by
      intro c' hc'
      exact mem_fnames_dropCol (hsub c' (by simp [hc'])) (fun h => hcr (h ▸ hc'))
    simp only [applyDrop, if_pos hc]
    rw [ih (dropCol X c) hnd' hsub']
    congr 1
    rw [dropCol, List.filter_filter]
    apply List.filter_congr
    intro a _
    by_cases h1 : a.1 = c <;> by_cases h2 : a.1 ∈ rest <;> simp [h1, h2]

/-- Witness for C4 at a concrete frame and one-column drop list. -/
theorem applyDrop_removes_present_witness :
    applyDrop XC4 ["g"] = .ok (XC4.filter (fun p => decide (p.1 ∉ ["g"]))) :=
  applyDrop_removes_present XC4 ["g"] (by decide) (by decide)

/-- Counterexample to claim C5 as stated: in the no-target-columns
pass-through case, a fitted encoder with the return-frame flag disabled
still returns the tabular frame, not the raw array. -/
theorem passthrough_ignores_return_df :
    eC5.return_df = false ∧ fit cfgC5 XC5 = .ok eC5 ∧
    transform eC5 XC5 = .ok (.inl XC5) :=
  ⟨rfl, rfl, rfl⟩

/-- Claim C5 (amended): with target columns configured, transform returns a
tabular frame when the return-frame flag is set and a raw array when it is
not; in the no-target-columns case it returns the input frame unchanged,
regardless of the flag. -/
theorem transform_output_shape (e : Encoder) (X : Frame)
    (h1 : e.dim = some X.length) :
    (e.cols = [] → transform e X = .ok (.inl X)) ∧
    (∀ Y, transform e X = .ok Y → e.cols ≠ [] →
      ((e.return_df = true → ∃ F, Y = .inl F) ∧
       (e.return_df = false → ∃ A, Y = .inr A))) := by
  constructor
  · intro hc
    simp [transform, h1, hc]
  · intro Y hY hc
    simp only [transform, h1, eq_self_iff_true, if_true, if_neg hc] at hY
    cases h3 : (if e.drop_invariant then
        applyDrop (helmert_coding (ordinalTransform e.ordinal X) e.mapping) e.drop_cols
      else .ok (helmert_coding (ordinalTransform e.ordinal X) e.mapping)) with
    | error err => rw [h3] at hY; simp at hY
    | ok X3 =>
      rw [h3] at hY
      simp only [Except.ok.injEq] at hY
      constructor
      · intro hr
        refine ⟨X3, ?_⟩
        rw [← hY]
        simp [hr]
      · intro hr
        refine ⟨valuesOf X3, ?_⟩
        rw [← hY]
        simp [hr]

/-- Witness for C5: the pass-through branch of the amended statement at the
concrete fitted encoder. -/
theorem transform_output_shape_witness :
    transform eC5 XC5 = .ok (.inl XC5) :=
  (transform_output_shape eC5 XC5 rfl).1 rfl

theorem find?_key_cons_self {α β : Type} [DecidableEq α] (k : α) (v : β) (rest : List (α × β)) :
    ((k, v) :: rest).find? (fun q => decide (q.1 = k)) = some (k, v) :=
  List.find?_cons_of_pos _ (by simp)

theorem find?_key_cons_ne {α β : Type} [DecidableEq α] (k kk : α) (v : β) (rest : List (α × β))
    (h : kk ≠ k) :
    ((kk, v) :: rest).find? (fun q => decide (q.1 = k)) = rest.find? (fun q => decide (q.1 = k)) :=
  List.find?_cons_of_neg _ (by simp [h])

theorem genName_ne_self (col : String) (i : Nat) : genName col i ≠ col := by
  intro h
  have hl := congrArg String.length h
  rw [genName] at hl
  rw [String.length_append, String.length_append] at hl
  have h1 : ("_" : String).length = 1 := rfl
  rw [h1] at hl
  omega

theorem setCol_absent (X : Frame) (nm : String) (c : Col) (h : nm ∉ fnames X) :
    setCol X nm c = X ++ [(nm, c)] := by
  rw [setCol, if_neg]
  intro hany
  rw [List.any_eq_true] at hany
  obtain ⟨p, hp, hpe⟩ := hany
  rw [decide_eq_true_eq] at hpe
  exact h (List.mem_map.mpr ⟨p, hp, hpe⟩)

/-- Claim C3: fitting on a column with two levels and transforming a
single-row frame holding the first level yields one generated contrast
column with value -1; the second level yields value 1. -/
theorem two_level_roundtrip (c : String) (a b : Val)
    (hab : a ≠ b) (hc : c ≠ "intercept") (hg : genName c 0 ≠ "intercept") :
    fit ⟨some [c], false, true⟩ [(c, [a, b])] =
      .ok (fitBase ⟨some [c], false, true⟩ [(c, [a, b])]) ∧
    transform (fitBase ⟨some [c], false, true⟩ [(c, [a, b])]) [(c, [a])] =
      .ok (.inl [("intercept", [Sum.inr 1]), (genName c 0, [Sum.inr (-1)])]) ∧
    transform (fitBase ⟨some [c], false, true⟩ [(c, [a, b])]) [(c, [b])] =
      .ok (.inl [("intercept", [Sum.inr 1]), (genName c 0, [Sum.inr 1])]) := by
  have hba : b ≠ a := fun h => hab h.symm
  have hfo : firstOccur [a, b] = [a, b] := by
    simp [firstOccur, foAux, hba, hab]
  have hord : ordinalFit [a, b] = [(a, 1), (b, 2)] := by
    rw [ordinalFit, hfo]
    norm_num [List.enum]
  have hM2 : fit_helmert_coding [1, 2] =
      { colNames := ["0"], rows := [(1, [-1]), (2, [1]), (0, [0])] } := by decide
  have hgcol : getCol [(c, [a, b])] c = [a, b] := by simp [getCol_cons]
  have hord2 : (fitBase ⟨some [c], false, true⟩ [(c, [a, b])]).ordinal
      = [(c, [(a, 1), (b, 2)])] := by
    simp [fitBase, hgcol, hord]
  have hmap2 : (fitBase ⟨some [c], false, true⟩ [(c, [a, b])]).mapping
      = [(c, { colNames := ["0"], rows := [(1, [-1]), (2, [1]), (0, [0])] })] := by
    simp [fitBase, hgcol, hord, hM2]
  have hcols : (fitBase ⟨some [c], false, true⟩ [(c, [a, b])]).cols = [c] := rfl
  have hdim : (fitBase ⟨some [c], false, true⟩ [(c, [a, b])]).dim = some 1 := rfl
  have hcs : "intercept" ≠ c := Ne.symm hc
  have hgc : genName c 0 ≠ c := genName_ne_self c 0
  have hcg : c ≠ genName c 0 := Ne.symm hgc
  have hgs : "intercept" ≠ genName c 0 := Ne.symm hg
  have hX1 : ∀ w : Val, ordinalTransform [(c, [(a, 1), (b, 2)])] [(c, [w])]
      = [(c, [Sum.inr (codeFor [(a, 1), (b, 2)] w)])] := by
    intro w
    simp [ordinalTransform, find?_key_cons_self]
  have hca : codeFor [(a, 1), (b, 2)] a = 1 := by
    simp [codeFor, find?_key_cons_self]
  have hcb : codeFor [(a, 1), (b, 2)] b = 2 := by
    rw [codeFor, find?_key_cons_ne b a _ _ hab, find?_key_cons_self]
  have hHC : ∀ w : Val, helmert_coding [(c, [w])]
      [(c, { colNames := ["0"], rows := [(1, [-1]), (2, [1]), (0, [0])] })]
      = [("intercept", [Sum.inr 1]),
         (genName c 0,
          [modEntry { colNames := ["0"], rows := [(1, [-1]), (2, [1]), (0, [0])] } w 0])] := by
    intro w
    have hset1 : setCol [(c, [w])] "intercept" [Sum.inr 1]
        = [(c, [w]), ("intercept", [Sum.inr 1])] := by
      rw [setCol_absent]
      · rfl
      · simp [fnames, hcs]
    simp only [helmert_coding, nRows, fnames, List.map_cons, List.map_nil]
    rw [show (List.replicate [w].length (Sum.inr 1) : Col) = [Sum.inr 1] from rfl]
    rw [hset1]
    simp only [List.foldl_cons, List.foldl_nil, addContrast]
    rw [show List.range ({ colNames := ["0"], rows := [(1, [-1]), (2, [1]), (0, [0])] } : CMat).colNames.length = [0] from rfl]
    simp only [List.foldl_cons, List.foldl_nil]
    have hget : getCol [(c, [w]), ("intercept", [Sum.inr 1])] c = [w] := by
      simp [getCol_cons]
    rw [hget]
    have hset2 : setCol [(c, [w]), ("intercept", [Sum.inr 1])] (genName c 0)
        ([w].map (fun v => modEntry { colNames := ["0"], rows := [(1, [-1]), (2, [1]), (0, [0])] } v 0))
        = [(c, [w]), ("intercept", [Sum.inr 1]),
           (genName c 0, [modEntry { colNames := ["0"], rows := [(1, [-1]), (2, [1]), (0, [0])] } w 0])] := by
      rw [setCol_absent]
      · rfl
      · simp [fnames, hgc, hgs]
        intro hh
        exact absurd hh.symm hgs
    rw [hset2]
    rw [show genNames c ({ colNames := ["0"], rows := [(1, [-1]), (2, [1]), (0, [0])] } : CMat).colNames.length = [genName c 0] from rfl]
    simp only [spliceCol, if_pos rfl, List.append_nil, List.map_cons, List.map_nil]
    simp [getCol_cons, hc, hcs, hg, hgs, hcg, hgc]
  have hdi : (fitBase ⟨some [c], false, true⟩ [(c, [a, b])]).drop_invariant = false := rfl
  have hrd : (fitBase ⟨some [c], false, true⟩ [(c, [a, b])]).return_df = true := rfl
  have hm1 : modEntry { colNames := ["0"], rows := [(1, [-1]), (2, [1]), (0, [0])] } (Sum.inr 1) 0
      = Sum.inr (-1) := by decide
  have hm2 : modEntry { colNames := ["0"], rows := [(1, [-1]), (2, [1]), (0, [0])] } (Sum.inr 2) 0
      = Sum.inr 1 := by decide
  refine ⟨rfl, ?_, ?_⟩
  · simp only [transform, hdim, hcols, hord2, hmap2, hdi, hrd, List.length_cons,
      List.length_nil]
    rw [hX1 a, hca, hHC (Sum.inr 1), hm1]
    simp
  · simp only [transform, hdim, hcols, hord2, hmap2, hdi, hrd, List.length_cons,
      List.length_nil]
    rw [hX1 b, hcb, hHC (Sum.inr 2), hm2]
    simp

/-- Witness for C3 at a concrete column name and levels. -/
theorem two_level_roundtrip_witness :
    transform (fitBase ⟨some ["D"], false, true⟩ [("D", [Sum.inl "a", Sum.inl "b"])])
        [("D", [Sum.inl "a"])] =
      .ok (.inl [("intercept", [Sum.inr 1]), (genName "D" 0, [Sum.inr (-1)])]) :=
  (two_level_roundtrip "D" (Sum.inl "a") (Sum.inl "b") (by decide) (by decide) (by decide)).2.1


/-! Machinery for the column-order and row-preservation claims. -/

theorem expandNames_nilM (ns : List String) : expandNames [] ns = ns := by
  induction ns with
  | nil => rfl
  | cons x rest ih =>
    rw [show expandNames [] (x :: rest) = [x] ++ expandNames [] rest from rfl, ih]
    rfl

theorem expandNames_append (M : List (String × CMat)) (l1 l2 : List String) :
    expandNames M (l1 ++ l2) = expandNames M l1 ++ expandNames M l2 := by
  induction l1 with
  | nil => rfl
  | cons x rest ih => simp [expandNames, ih, List.append_assoc]

theorem expandNames_unmapped (M : List (String × CMat)) (ns : List String)
    (h : ∀ x ∈ ns, x ∉ M.map Prod.fst) : expandNames M ns = ns := by
  induction ns with
  | nil => rfl
  | cons x rest ih =>
    have hf : M.find? (fun m => decide (m.1 = x)) = none := by
      rw [List.find?_eq_none]
      intro m hm
      simp only [decide_eq_true_eq]
      intro he
      exact (h x (by simp)) (List.mem_map.mpr ⟨m, hm, he⟩)
    simp only [expandNames, hf]
    rw [ih (fun y hy => h y (by simp [hy]))]
    rfl

theorem expandNames_cons_not_mem (M : List (String × CMat)) (c0 : String) (mod0 : CMat)
    (ns : List String) (h : c0 ∉ ns) :
    expandNames ((c0, mod0) :: M) ns = expandNames M ns := by
  induction ns with
  | nil => rfl
  | cons x rest ih =>
    have hx : c0 ≠ x := fun he => h (by simp [he])
    simp only [expandNames]
    rw [List.find?_cons_of_neg _ (by simp [hx])]
    rw [ih (fun he => h (by simp [he]))]

theorem mem_expandNames (M : List (String × CMat)) (ns : List String) (x : String)
    (h : x ∈ expandNames M ns) :
    (x ∈ ns ∧ x ∉ M.map Prod.fst) ∨
    (∃ m ∈ M, x ∈ genNames m.1 m.2.colNames.length) := by
  induction ns with
  | nil => simp [expandNames] at h
  | cons y rest ih =>
    simp only [expandNames, List.mem_append] at h
    rcases h with h | h
    · cases hf : M.find? (fun m => decide (m.1 = y)) with
      | none =>
        rw [hf] at h
        simp only [List.mem_singleton] at h
        subst h
        refine Or.inl ⟨by simp, ?_⟩
        rw [List.find?_eq_none] at hf
        intro hmem
        obtain ⟨m, hm, hme⟩ := List.mem_map.mp hmem
        exact absurd hme (by simpa using hf m hm)
      | some m =>
        rw [hf] at h
        have hm : m ∈ M := List.mem_of_find?_eq_some hf
        have hme : m.1 = y := by simpa using List.find?_some hf
        exact Or.inr ⟨m, hm, by rw [hme]; exact h⟩
    · rcases ih h with ⟨h1, h2⟩ | h1
      · exact Or.inl ⟨by simp [h1], h2⟩
      · exact Or.inr h1

theorem mem_spliceCol_sub (ns : List String) (c0 : String) (g0 : List String) (x : String)
    (h : x ∈ spliceCol ns c0 g0) : x ∈ ns ∨ x ∈ g0 := by
  induction ns with
  | nil => simp [spliceCol] at h
  | cons y rest ih =>
    simp only [spliceCol] at h
    by_cases hy : y = c0
    · rw [if_pos hy] at h
      rcases List.mem_append.mp h with h | h
      · exact Or.inr h
      · exact Or.inl (by simp [h])
    · rw [if_neg hy] at h
      rcases List.mem_cons.mp h with h | h
      · exact Or.inl (by simp [h])
      · rcases ih h with h | h
        · exact Or.inl (by simp [h])
        · exact Or.inr h

theorem mem_spliceCol_of_ne (ns : List String) (c0 : String) (g0 : List String) (x : String)
    (hx : x ∈ ns) (hne : x ≠ c0) : x ∈ spliceCol ns c0 g0 := by
  induction ns with
  | nil => simp at hx
  | cons y rest ih =>
    simp only [spliceCol]
    by_cases hy : y = c0
    · rw [if_pos hy]
      rcases List.mem_cons.mp hx with h | h
      · exact absurd (h.trans hy) hne
      · exact List.mem_append.mpr (Or.inr h)
    · rw [if_neg hy]
      rcases List.mem_cons.mp hx with h | h
      · exact List.mem_cons.mpr (Or.inl h)
      · exact List.mem_cons.mpr (Or.inr (ih h))

theorem spliceCol_nodup (ns : List String) (c0 : String) (g0 : List String)
    (h1 : ns.Nodup) (h2 : g0.Nodup) (h3 : ∀ x ∈ g0, x ∉ ns) :
    (spliceCol ns c0 g0).Nodup := by
  induction ns with
  | nil => simp [spliceCol]
  | cons y rest ih =>
    have hyr : y ∉ rest := (List.nodup_cons.mp h1).1
    have hrest : rest.Nodup := (List.nodup_cons.mp h1).2
    simp only [spliceCol]
    by_cases hy : y = c0
    · rw [if_pos hy]
      rw [List.nodup_append]
      refine ⟨h2, hrest, ?_⟩
      intro x hx hx2
      exact (h3 x hx) (by simp [hx2])
    · rw [if_neg hy]
      rw [List.nodup_cons]
      constructor
      · intro hmem
        rcases mem_spliceCol_sub rest c0 g0 y hmem with h | h
        · exact hyr h
        · exact (h3 y h) (by simp)
      · exact ih hrest (fun x hx => fun hmem => (h3 x hx) (by simp [hmem]))

theorem spliceCol_eq_expand_single (ns : List String) (c0 : String) (mod0 : CMat)
    (h : ns.Nodup) :
    spliceCol ns c0 (genNames c0 mod0.colNames.length) = expandNames [(c0, mod0)] ns := by
  induction ns with
  | nil => rfl
  | cons y rest ih =>
    have hrest : rest.Nodup := (List.nodup_cons.mp h).2
    simp only [spliceCol, expandNames]
    by_cases hy : y = c0
    · rw [if_pos hy]
      subst hy
      rw [List.find?_cons_of_pos _ (by simp)]
      rw [expandNames_unmapped [(y, mod0)] rest
        (by
          intro x hx
          simp only [List.map_cons, List.map_nil, List.mem_singleton]
          intro he
          exact (List.nodup_cons.mp h).1 (he ▸ hx))]
    · rw [if_neg hy]
      rw [List.find?_cons_of_neg _ (by simpa using (fun he : c0 = y => hy he.symm))]
      rw [show (List.find? (fun m => decide (m.1 = y)) [] : Option (String × CMat)) = none from rfl]
      rw [ih hrest]
      rfl

theorem expand_middle (M : List (String × CMat)) (c0 : String) (mod0 : CMat)
    (ns : List String) (h1 : ns.Nodup)
    (hb : ∀ x ∈ genNames c0 mod0.colNames.length, x ∉ M.map Prod.fst) :
    expandNames M (spliceCol ns c0 (genNames c0 mod0.colNames.length)) =
    expandNames ((c0, mod0) :: M) ns := by
  induction ns with
  | nil => rfl
  | cons y rest ih =>
    have hrest : rest.Nodup := (List.nodup_cons.mp h1).2
    simp only [spliceCol]
    by_cases hy : y = c0
    · rw [if_pos hy]
      subst hy
      rw [expandNames_append]
      rw [expandNames_unmapped M _ hb]
      have hRHS : expandNames ((y, mod0) :: M) (y :: rest) =
          genNames y mod0.colNames.length ++ expandNames ((y, mod0) :: M) rest := by
        simp only [expandNames]
        rw [List.find?_cons_of_pos _ (by simp)]
      rw [hRHS]
      rw [expandNames_cons_not_mem M y mod0 rest (List.nodup_cons.mp h1).1]
    · rw [if_neg hy]
      have hLHS : expandNames M (y :: spliceCol rest c0 (genNames c0 mod0.colNames.length)) =
          (match M.find? (fun m => decide (m.1 = y)) with
           | some m => genNames y m.2.colNames.length
           | none => [y]) ++ expandNames M (spliceCol rest c0 (genNames c0 mod0.colNames.length)) := rfl
      rw [hLHS, ih hrest]
      have hfind : ((c0, mod0) :: M).find? (fun m => decide (m.1 = y)) =
          M.find? (fun m => decide (m.1 = y)) :=
        List.find?_cons_of_neg _ (by simpa using (fun he : c0 = y => hy he.symm))
      conv_rhs => rw [expandNames]
      rw [hfind]

theorem foldNames_eq_expand (M : List (String × CMat)) (ns : List String)
    (h1 : ns.Nodup) (hM : (M.map Prod.fst).Nodup)
    (hsub : ∀ m ∈ M, m.1 ∈ ns)
    (hgnd : (allGen M).Nodup)
    (hgfresh : ∀ x ∈ allGen M, x ∉ ns) :
    M.foldl (fun ns sw => spliceCol ns sw.1 (genNames sw.1 sw.2.colNames.length)) ns
      = expandNames M ns := by
  induction M generalizing ns with
  | nil => rw [List.foldl_nil, expandNames_nilM]
  | cons m0 M ih =>
    obtain ⟨c0, mod0⟩ := m0
    have hgsplit : allGen ((c0, mod0) :: M) = genNames c0 mod0.colNames.length ++ allGen M := rfl
    rw [hgsplit] at hgnd hgfresh
    have hg0nd : (genNames c0 mod0.colNames.length).Nodup := (List.nodup_append.mp hgnd).1
    have hMgnd : (allGen M).Nodup := (List.nodup_append.mp hgnd).2.1
    have hdisj : ∀ x ∈ genNames c0 mod0.colNames.length, x ∉ allGen M := by
      intro x hx
      exact (List.nodup_append.mp hgnd).2.2 hx
    have hg0fresh : ∀ x ∈ genNames c0 mod0.colNames.length, x ∉ ns := by
      intro x hx
      exact hgfresh x (List.mem_append.mpr (Or.inl hx))
    have hMfresh : ∀ x ∈ allGen M, x ∉ ns := by
      intro x hx
      exact hgfresh x (List.mem_append.mpr (Or.inr hx))
    have hc0ns : c0 ∈ ns := hsub (c0, mod0) (by simp)
    have hMcons : (c0 :: M.map Prod.fst).Nodup := by simpa using hM
    have hc0M : c0 ∉ M.map Prod.fst := (List.nodup_cons.mp hMcons).1
    have hMtl : (M.map Prod.fst).Nodup := (List.nodup_cons.mp hMcons).2
    simp only [List.foldl_cons]
    set ns2 := spliceCol ns c0 (genNames c0 mod0.colNames.length) with hns2
    have hns2nd : ns2.Nodup := spliceCol_nodup ns c0 _ h1 hg0nd hg0fresh
    have hsub2 : ∀ m ∈ M, m.1 ∈ ns2 := by
      intro m hm
      refine mem_spliceCol_of_ne ns c0 _ m.1 (hsub m (by simp [hm])) ?_
      intro he
      exact hc0M (List.mem_map.mpr ⟨m, hm, he⟩)
    have hMfresh2 : ∀ x ∈ allGen M, x ∉ ns2 := by
      intro x hx hmem
      rcases mem_spliceCol_sub ns c0 _ x hmem with h | h
      · exact hMfresh x hx h
      · exact hdisj x h hx
    rw [ih ns2 hns2nd hMtl hsub2 hMgnd hMfresh2]
    exact expand_middle M c0 mod0 ns h1
      (by
        intro x hx hmem
        obtain ⟨m, hm, hme⟩ := List.mem_map.mp hmem
        exact (hg0fresh x hx) (hme ▸ hsub m (List.mem_cons_of_mem _ hm)))

theorem foldl_addContrast_snd (M : List (String × CMat)) (X : Frame) (ns : List String) :
    (M.foldl addContrast (X, ns)).2 =
    M.foldl (fun ns sw => spliceCol ns sw.1 (genNames sw.1 sw.2.colNames.length)) ns := by
  induction M generalizing X ns with
  | nil => rfl
  | cons m0 M ih => simp [addContrast, ih]


theorem getCol_map_set_ne (a x : String) (col : Col) (h : x ≠ a) (X : Frame) :
    getCol (X.map (fun p => if p.1 = a then (a, col) else p)) x = getCol X x := by
  induction X with
  | nil => rfl
  | cons p rest ih =>
    obtain ⟨pn, pc⟩ := p
    simp only [List.map_cons]
    by_cases hp : pn = a
    · rw [if_pos hp, getCol_cons, getCol_cons,
        if_neg (fun he => h he.symm), if_neg (fun he : pn = x => h (he.symm.trans hp))]
      exact ih
    · rw [if_neg hp, getCol_cons, getCol_cons]
      by_cases hx : pn = x
      · rw [if_pos hx, if_pos hx]
      · rw [if_neg hx, if_neg hx]
        exact ih

theorem getCol_append_single_ne (X : Frame) (a x : String) (col : Col) (h : x ≠ a) :
    getCol (X ++ [(a, col)]) x = getCol X x := by
  induction X with
  | nil =>
    rw [List.nil_append, getCol_cons, if_neg (fun he => h he.symm)]
  | cons p rest ih =>
    obtain ⟨pn, pc⟩ := p
    rw [List.cons_append, getCol_cons, getCol_cons]
    by_cases hx : pn = x
    · rw [if_pos hx, if_pos hx]
    · rw [if_neg hx, if_neg hx]
      exact ih

theorem getCol_setCol_ne (X : Frame) (a x : String) (col : Col) (h : x ≠ a) :
    getCol (setCol X a col) x = getCol X x := by
  rw [setCol]
  by_cases hany : X.any (fun p => decide (p.1 = a)) = true
  · rw [if_pos hany]
    exact getCol_map_set_ne a x col h X
  · rw [if_neg hany]
    exact getCol_append_single_ne X a x col h

theorem getCol_append_single_self (X : Frame) (a : String) (col : Col)
    (h : a ∉ fnames X) : getCol (X ++ [(a, col)]) a = col := by
  induction X with
  | nil => rw [List.nil_append, getCol_cons, if_pos rfl]
  | cons p rest ih =>
    obtain ⟨pn, pc⟩ := p
    have hpn : pn ≠ a := by
      intro he
      exact h (by simp [fnames, he])
    rw [List.cons_append, getCol_cons, if_neg hpn]
    exact ih (fun hm => h (by simp [fnames] at hm ⊢; exact Or.inr hm))

theorem getCol_map_set_self (a : String) (col : Col) (X : Frame)
    (hany : X.any (fun p => decide (p.1 = a)) = true) :
    getCol (X.map (fun p => if p.1 = a then (a, col) else p)) a = col := by
  induction X with
  | nil => simp at hany
  | cons p rest ih =>
    obtain ⟨pn, pc⟩ := p
    simp only [List.map_cons]
    by_cases hp : pn = a
    · rw [if_pos hp, getCol_cons, if_pos rfl]
    · rw [if_neg hp, getCol_cons, if_neg hp]
      refine ih ?_
      simpa [List.any_cons, hp] using hany

theorem getCol_setCol_self (X : Frame) (a : String) (col : Col) :
    getCol (setCol X a col) a = col := by
  rw [setCol]
  by_cases hany : X.any (fun p => decide (p.1 = a)) = true
  · rw [if_pos hany]
    exact getCol_map_set_self a col X hany
  · rw [if_neg hany]
    refine getCol_append_single_self X a col ?_
    intro hmem
    apply hany
    rw [List.any_eq_true]
    obtain ⟨p, hp, hpe⟩ := List.mem_map.mp hmem
    exact ⟨p, hp, by simp [hpe]⟩

theorem rect_append_single (X : Frame) (a : String) (col : Col) (n : Nat)
    (hr : Rect X n) (hc : col.length = n) : Rect (X ++ [(a, col)]) n := by
  intro p hp
  rcases List.mem_append.mp hp with h | h
  · exact hr p h
  · simp only [List.mem_singleton] at h
    subst h
    exact hc

theorem inner_stable (c0 : String) (mod0 : CMat) (L : List Nat) (X : Frame) (x : String)
    (hx : ∀ j ∈ L, genName c0 j ≠ x) :
    getCol (L.foldl (fun acc j => setCol acc (genName c0 j)
      ((getCol acc c0).map (fun v => modEntry mod0 v j))) X) x = getCol X x := by
  induction L generalizing X with
  | nil => rfl
  | cons j L ih =>
    rw [List.foldl_cons]
    rw [ih _ (fun j2 h2 => hx j2 (by simp [h2]))]
    exact getCol_setCol_ne _ _ _ _ (Ne.symm (hx j (by simp)))

theorem fold_frame_stable (M : List (String × CMat)) (st : Frame × List String) (x : String)
    (hx : x ∉ allGen M) :
    getCol (M.foldl addContrast st).1 x = getCol st.1 x := by
  induction M generalizing st with
  | nil => rfl
  | cons m0 M ih =>
    obtain ⟨c0, mod0⟩ := m0
    rw [show allGen ((c0, mod0) :: M) = genNames c0 mod0.colNames.length ++ allGen M from rfl,
      List.mem_append] at hx
    push_neg at hx
    rw [List.foldl_cons, ih _ hx.2]
    have haddc : (addContrast st (c0, mod0)).1 = (List.range mod0.colNames.length).foldl
        (fun acc i => setCol acc (genName c0 i)
          ((getCol acc c0).map (fun v => modEntry mod0 v i))) st.1 := rfl
    rw [haddc]
    refine inner_stable c0 mod0 _ st.1 x ?_
    intro j hj he
    exact hx.1 (he ▸ List.mem_map.mpr ⟨j, hj, rfl⟩)

theorem inner_written (c0 : String) (mod0 : CMat) (L : List Nat) (X : Frame) (i : Nat)
    (hiL : i ∈ L) (hnd : (L.map (genName c0)).Nodup)
    (hne : ∀ j ∈ L, genName c0 j ≠ c0) :
    getCol (L.foldl (fun acc j => setCol acc (genName c0 j)
      ((getCol acc c0).map (fun v => modEntry mod0 v j))) X) (genName c0 i)
      = (getCol X c0).map (fun v => modEntry mod0 v i) := by
  induction L generalizing X with
  | nil => simp at hiL
  | cons j L ih =>
    have hnd2 : (genName c0 j :: L.map (genName c0)).Nodup := by simpa using hnd
    rw [List.foldl_cons]
    have hstep : getCol (setCol X (genName c0 j)
        ((getCol X c0).map (fun v => modEntry mod0 v j))) c0 = getCol X c0 :=
      getCol_setCol_ne _ _ _ _ (Ne.symm (hne j (by simp)))
    rcases List.mem_cons.mp hiL with he | hmem
    · subst he
      have hnotin : genName c0 i ∉ L.map (genName c0) := (List.nodup_cons.mp hnd2).1
      rw [inner_stable c0 mod0 L _ (genName c0 i)
        (fun j2 hj2 he2 => hnotin (he2 ▸ List.mem_map.mpr ⟨j2, hj2, rfl⟩))]
      rw [getCol_setCol_self]
    · rw [ih _ hmem (List.nodup_cons.mp hnd2).2 (fun j2 h2 => hne j2 (by simp [h2]))]
      rw [hstep]

theorem fold_gen_col (M : List (String × CMat)) (st : Frame × List String)
    (c0 : String) (mod0 : CMat) (i : Nat)
    (hmem : (c0, mod0) ∈ M) (hi : i < mod0.colNames.length)
    (hMnd : (M.map Prod.fst).Nodup) (hgnd : (allGen M).Nodup)
    (hstable : c0 ∉ allGen M) :
    getCol (M.foldl addContrast st).1 (genName c0 i)
      = (getCol st.1 c0).map (fun v => modEntry mod0 v i) := by
  induction M generalizing st with
  | nil => simp at hmem
  | cons m1 M ih =>
    obtain ⟨c1, mod1⟩ := m1
    have hgsplit : allGen ((c1, mod1) :: M)
        = genNames c1 mod1.colNames.length ++ allGen M := rfl
    rw [hgsplit] at hgnd hstable
    rw [List.mem_append] at hstable
    push_neg at hstable
    have hndM : (allGen M).Nodup := (List.nodup_append.mp hgnd).2.1
    have hdisj := (List.nodup_append.mp hgnd).2.2
    have hMc : (c1 :: M.map Prod.fst).Nodup := by simpa using hMnd
    rw [List.foldl_cons]
    have haddc : (addContrast st (c1, mod1)).1 = (List.range mod1.colNames.length).foldl
        (fun acc j => setCol acc (genName c1 j)
          ((getCol acc c1).map (fun v => modEntry mod1 v j))) st.1 := rfl
    rcases List.mem_cons.mp hmem with he | hmem2
    · have he1 : c0 = c1 := congrArg Prod.fst he
      have he2 : mod0 = mod1 := congrArg Prod.snd he
      subst he1
      subst he2
      have hfresh : genName c0 i ∉ allGen M := by
        intro hmm
        exact hdisj (List.mem_map.mpr ⟨i, List.mem_range.mpr hi, rfl⟩) hmm
      rw [fold_frame_stable M _ _ hfresh]
      rw [haddc]
      refine inner_written c0 mod0 _ st.1 i (List.mem_range.mpr hi)
        (List.nodup_append.mp hgnd).1 ?_
      intro j hj he3
      have hmem3 : genName c0 j ∈ genNames c0 mod0.colNames.length :=
        List.mem_map.mpr ⟨j, hj, rfl⟩
      rw [he3] at hmem3
      exact hstable.1 hmem3
    · rw [ih _ hmem2 (List.nodup_cons.mp hMc).2 hndM hstable.2]
      congr 1
      rw [haddc]
      refine inner_stable c1 mod1 _ st.1 c0 ?_
      intro j hj he3
      have hmem3 : genName c1 j ∈ genNames c1 mod1.colNames.length :=
        List.mem_map.mpr ⟨j, hj, rfl⟩
      rw [he3] at hmem3
      exact hstable.1 hmem3


theorem fnames_reindex (L : List String) (g : String → Col) :
    fnames (L.map (fun nm => (nm, g nm))) = L := by
  induction L with
  | nil => rfl
  | cons a L ih => simp only [List.map_cons, fnames] at ih ⊢; rw [ih]

theorem getCol_reindex_head (a : String) (L : List String) (g : String → Col) :
    getCol ((a :: L).map (fun nm => (nm, g nm))) a = g a := by
  rw [List.map_cons, getCol_cons, if_pos rfl]

theorem getCol_reindex_mem (L : List String) (g : String → Col) (nm : String)
    (h : nm ∈ L) : getCol (L.map (fun nm => (nm, g nm))) nm = g nm := by
  induction L with
  | nil => simp at h
  | cons a L ih =>
    rw [List.map_cons, getCol_cons]
    by_cases ha : a = nm
    · rw [if_pos ha, ha]
    · rw [if_neg ha]
      exact ih (by
        rcases List.mem_cons.mp h with he | hm
        · exact absurd he.symm ha
        · exact hm)

theorem getCol_cons_pair (p : String × Col) (rest : Frame) (nm : String) :
    getCol (p :: rest) nm = if p.1 = nm then p.2 else getCol rest nm := by
  obtain ⟨a, c⟩ := p
  exact getCol_cons a nm c rest

theorem ordinalTransform_cons (om : List (String × List (Val × ℚ)))
    (p : String × Col) (rest : Frame) :
    ordinalTransform om (p :: rest) =
      (p.1, (match om.find? (fun q => decide (q.1 = p.1)) with
             | some q => p.2.map (fun v => Sum.inr (codeFor q.2 v))
             | none => p.2)) :: ordinalTransform om rest := by
  simp only [ordinalTransform, List.map_cons]
  cases om.find? (fun q => decide (q.1 = p.1)) <;> rfl

theorem fnames_ordinalTransform (om : List (String × List (Val × ℚ))) (X : Frame) :
    fnames (ordinalTransform om X) = fnames X := by
  induction X with
  | nil => rfl
  | cons p rest ih =>
    rw [ordinalTransform_cons]
    simp only [fnames, List.map_cons] at ih ⊢
    rw [ih]

theorem rect_ordinalTransform (om : List (String × List (Val × ℚ))) (X : Frame) (n : Nat)
    (hr : Rect X n) : Rect (ordinalTransform om X) n := by
  induction X with
  | nil => intro p hp; simp [ordinalTransform] at hp
  | cons q rest ih =>
    rw [ordinalTransform_cons]
    intro p hp
    rcases List.mem_cons.mp hp with he | hm
    · subst he
      cases om.find? (fun w => decide (w.1 = q.1)) <;>
        simpa using hr q (by simp)
    · exact ih (fun w hw => hr w (by simp [hw])) p hm

theorem nRows_ordinalTransform (om : List (String × List (Val × ℚ))) (X : Frame) :
    nRows (ordinalTransform om X) = nRows X := by
  cases X with
  | nil => rfl
  | cons p rest =>
    rw [ordinalTransform_cons]
    cases om.find? (fun q => decide (q.1 = p.1)) <;> simp [nRows]

theorem getCol_ordinalTransform_ne (om : List (String × List (Val × ℚ))) (X : Frame)
    (x : String) (hx : x ∉ om.map Prod.fst) :
    getCol (ordinalTransform om X) x = getCol X x := by
  induction X with
  | nil => rfl
  | cons p rest ih =>
    rw [ordinalTransform_cons, getCol_cons_pair, getCol_cons_pair]
    by_cases hpx : p.1 = x
    · rw [if_pos hpx, if_pos hpx]
      have hf : om.find? (fun q => decide (q.1 = p.1)) = none := by
        rw [List.find?_eq_none]
        intro q hq
        simp only [decide_eq_true_eq]
        intro he
        exact hx (List.mem_map.mpr ⟨q, hq, he.trans hpx⟩)
      rw [hf]
    · rw [if_neg hpx, if_neg hpx]
      exact ih

/-- Claim C9: the expansion output starts with an all-ones column named
`intercept`, followed by the original columns in their original relative
order with each mapped column replaced in place by its generated contrast
columns.  The hypotheses are the hygiene conditions that hold for every
fitted encoder: distinct column names, mapped columns present, and fresh
generated/intercept names. -/
theorem expansion_column_order (X : Frame) (M : List (String × CMat))
    (h1 : (fnames X).Nodup) (hM : (M.map Prod.fst).Nodup)
    (hsub : ∀ m ∈ M, m.1 ∈ fnames X)
    (hgnd : (allGen M).Nodup)
    (hgfresh : ∀ x ∈ allGen M, x ∉ fnames X)
    (hint : "intercept" ∉ fnames X) (hint2 : "intercept" ∉ allGen M) :
    fnames (helmert_coding X M) = "intercept" :: expandNames M (fnames X) ∧
    getCol (helmert_coding X M) "intercept" = List.replicate (nRows X) (Sum.inr 1) := by
  have hset : setCol X "intercept" (List.replicate (nRows X) (Sum.inr 1))
      = X ++ [("intercept", List.replicate (nRows X) (Sum.inr 1))] :=
    setCol_absent X _ _ hint
  constructor
  · rw [show helmert_coding X M =
        ("intercept" :: (M.foldl addContrast
            (setCol X "intercept" (List.replicate (nRows X) (Sum.inr 1)), fnames X)).2).map
          (fun nm => (nm, getCol (M.foldl addContrast
            (setCol X "intercept" (List.replicate (nRows X) (Sum.inr 1)), fnames X)).1 nm))
      from rfl]
    rw [fnames_reindex]
    rw [foldl_addContrast_snd]
    rw [foldNames_eq_expand M (fnames X) h1 hM hsub hgnd hgfresh]
  · rw [show helmert_coding X M =
        ("intercept" :: (M.foldl addContrast
            (setCol X "intercept" (List.replicate (nRows X) (Sum.inr 1)), fnames X)).2).map
          (fun nm => (nm, getCol (M.foldl addContrast
            (setCol X "intercept" (List.replicate (nRows X) (Sum.inr 1)), fnames X)).1 nm))
      from rfl]
    rw [getCol_reindex_head]
    rw [fold_frame_stable M _ "intercept" hint2]
    rw [hset]
    exact getCol_append_single_self X _ _ hint

/-- Witness for C9 at a two-column frame with one mapped column. -/
theorem expansion_column_order_witness :
    fnames (helmert_coding [("A", [Sum.inr 5]), ("D", [Sum.inr 1])]
        [("D", { colNames := ["0"], rows := [(1, [-1]), (2, [1]), (0, [0])] })]) =
      "intercept" :: expandNames
        [("D", { colNames := ["0"], rows := [(1, [-1]), (2, [1]), (0, [0])] })]
        (fnames [("A", [Sum.inr 5]), ("D", [Sum.inr 1])]) ∧
    getCol (helmert_coding [("A", [Sum.inr 5]), ("D", [Sum.inr 1])]
        [("D", { colNames := ["0"], rows := [(1, [-1]), (2, [1]), (0, [0])] })]) "intercept" =
      List.replicate (nRows [("A", [Sum.inr 5]), ("D", [Sum.inr 1])]) (Sum.inr 1) :=
  expansion_column_order [("A", [Sum.inr 5]), ("D", [Sum.inr 1])]
    [("D", { colNames := ["0"], rows := [(1, [-1]), (2, [1]), (0, [0])] })]
    (by decide) (by decide) (by decide) (by decide) (by decide) (by decide) (by decide)


theorem getCol_dropCol_ne (X : Frame) (c nm : String) (h : nm ≠ c) :
    getCol (dropCol X c) nm = getCol X nm := by
  induction X with
  | nil => rfl
  | cons p rest ih =>
    obtain ⟨pn, pc⟩ := p
    simp only [dropCol, List.filter_cons]
    by_cases hpc : pn = c
    · rw [if_neg (by simp [hpc])]
      rw [getCol_cons, if_neg (fun he : pn = nm => h (he.symm.trans hpc))]
      exact ih
    · rw [if_pos (by simp [hpc])]
      rw [getCol_cons, getCol_cons]
      by_cases hx : pn = nm
      · rw [if_pos hx, if_pos hx]
      · rw [if_neg hx, if_neg hx]
        exact ih

theorem rect_dropCol (X : Frame) (c : String) (n : Nat) (hr : Rect X n) :
    Rect (dropCol X c) n := by
  intro p hp
  exact hr p (List.mem_of_mem_filter hp)

theorem applyDrop_rect (cols : List String) (X Y : Frame) (n : Nat)
    (h : applyDrop X cols = .ok Y) (hr : Rect X n) : Rect Y n := by
  induction cols generalizing X with
  | nil =>
    simp only [applyDrop, Except.ok.injEq] at h
    subst h
    exact hr
  | cons c rest ih =>
    simp only [applyDrop] at h
    by_cases hc : c ∈ fnames X
    · rw [if_pos hc] at h
      exact ih (dropCol X c) h (rect_dropCol X c n hr)
    · rw [if_neg hc] at h
      simp at h

theorem applyDrop_getCol (cols : List String) (X Y : Frame) (nm : String)
    (h : applyDrop X cols = .ok Y) (hnm : nm ∉ cols) : getCol Y nm = getCol X nm := by
  induction cols generalizing X with
  | nil =>
    simp only [applyDrop, Except.ok.injEq] at h
    subst h
    rfl
  | cons c rest ih =>
    simp only [applyDrop] at h
    by_cases hc : c ∈ fnames X
    · rw [if_pos hc] at h
      rw [ih (dropCol X c) h (fun hm => hnm (by simp [hm]))]
      exact getCol_dropCol_ne X c nm (fun he => hnm (by simp [he]))
    · rw [if_neg hc] at h
      simp at h

theorem mem_expand_unmapped (M : List (String × CMat)) (ns : List String) (x : String)
    (hx : x ∈ ns) (hunm : x ∉ M.map Prod.fst) : x ∈ expandNames M ns := by
  induction ns with
  | nil => simp at hx
  | cons y rest ih =>
    simp only [expandNames, List.mem_append]
    rcases List.mem_cons.mp hx with he | hm
    · subst he
      left
      have hf : M.find? (fun m => decide (m.1 = x)) = none := by
        rw [List.find?_eq_none]
        intro m hm2
        simp only [decide_eq_true_eq]
        intro he2
        exact hunm (List.mem_map.mpr ⟨m, hm2, he2⟩)
      rw [hf]
      simp
    · exact Or.inr (ih hm)

/-- Claim C6: for every fitted encoder (with the hygiene conditions every
fit instance satisfies) and every input of the fitted column count on which
transform returns a frame, the output has exactly the input row count on
every column, and the untouched columns pass through unchanged, so no row
is reordered or dropped. -/
theorem transform_preserves_rows (e : Encoder) (X : Frame) (n : Nat) (Y : Frame)
    (hdim : e.dim = some X.length)
    (hrect : Rect X n) (hn : nRows X = n)
    (h1 : (fnames X).Nodup)
    (hM : (e.mapping.map Prod.fst).Nodup)
    (hsub : ∀ m ∈ e.mapping, m.1 ∈ fnames X)
    (hgnd : (allGen e.mapping).Nodup)
    (hgfresh : ∀ x ∈ allGen e.mapping, x ∉ fnames X)
    (hint : "intercept" ∉ fnames X) (hint2 : "intercept" ∉ allGen e.mapping)
    (hom : e.ordinal.map Prod.fst = e.mapping.map Prod.fst)
    (hok : transform e X = .ok (.inl Y)) :
    Rect Y n ∧
    (∀ nm ∈ fnames X, nm ∉ e.mapping.map Prod.fst → nm ≠ "intercept" →
      nm ∉ e.drop_cols → getCol Y nm = getCol X nm) := by
  by_cases hc : e.cols = []
  · simp only [transform, hdim, eq_self_iff_true, if_true, if_pos hc,
      Except.ok.injEq, Sum.inl.injEq] at hok
    subst hok
    exact ⟨hrect, fun nm _ _ _ _ => rfl⟩
  · simp only [transform, hdim, eq_self_iff_true, if_true, if_neg hc] at hok
    have hfn1 : fnames (ordinalTransform e.ordinal X) = fnames X :=
      fnames_ordinalTransform _ _
    have hrect1 : Rect (ordinalTransform e.ordinal X) n :=
      rect_ordinalTransform _ _ _ hrect
    have hnr1 : nRows (ordinalTransform e.ordinal X) = n := by
      rw [nRows_ordinalTransform, hn]
    have h1x : (fnames (ordinalTransform e.ordinal X)).Nodup := by rw [hfn1]; exact h1
    have hsubx : ∀ m ∈ e.mapping, m.1 ∈ fnames (ordinalTransform e.ordinal X) := by
      rw [hfn1]; exact hsub
    have hgfreshx : ∀ x ∈ allGen e.mapping, x ∉ fnames (ordinalTransform e.ordinal X) := by
      rw [hfn1]; exact hgfresh
    have hintx : "intercept" ∉ fnames (ordinalTransform e.ordinal X) := by
      rw [hfn1]; exact hint
    set X1 := ordinalTransform e.ordinal X with hX1def
    set F := e.mapping.foldl addContrast
      (setCol X1 "intercept" (List.replicate (nRows X1) (Sum.inr 1)), fnames X1) with hFdef
    have hX2eq : helmert_coding X1 e.mapping =
        ("intercept" :: F.2).map (fun nm => (nm, getCol F.1 nm)) := rfl
    have hsnd : F.2 = expandNames e.mapping (fnames X1) := by
      rw [hFdef, foldl_addContrast_snd]
      exact foldNames_eq_expand e.mapping (fnames X1) h1x hM hsubx hgnd hgfreshx
    have hset : setCol X1 "intercept" (List.replicate (nRows X1) (Sum.inr 1))
        = X1 ++ [("intercept", List.replicate (nRows X1) (Sum.inr 1))] :=
      setCol_absent X1 _ _ hintx
    have hIC : getCol F.1 "intercept" = List.replicate n (Sum.inr 1) := by
      rw [hFdef]
      rw [fold_frame_stable e.mapping _ "intercept" hint2]
      rw [hset]
      rw [getCol_append_single_self X1 _ _ hintx, hnr1]
    have hUN : ∀ nm ∈ fnames X1, nm ∉ e.mapping.map Prod.fst → nm ≠ "intercept" →
        getCol F.1 nm = getCol X1 nm := by
      intro nm hmem hunm hni
      rw [hFdef]
      rw [fold_frame_stable e.mapping _ nm (fun hg => hgfreshx nm hg hmem)]
      rw [hset]
      exact getCol_append_single_ne X1 _ _ _ hni
    have hGEN : ∀ m ∈ e.mapping, ∀ i, i < m.2.colNames.length →
        getCol F.1 (genName m.1 i) = (getCol X1 m.1).map (fun v => modEntry m.2 v i) := by
      intro m hm i hi
      rw [hFdef]
      rw [fold_gen_col e.mapping _ m.1 m.2 i hm hi hM hgnd
        (fun hg => hgfreshx m.1 hg (hsubx m hm))]
      rw [hset]
      rw [getCol_append_single_ne X1 _ _ _ (fun he => hintx (by rw [← he]; exact hsubx m hm))]
    have hrect2 : Rect (helmert_coding X1 e.mapping) n := by
      rw [hX2eq]
      intro p hp
      obtain ⟨nm, hnm, hpe⟩ := List.mem_map.mp hp
      subst hpe
      rcases List.mem_cons.mp hnm with he | hm
      · subst he
        simp only [hIC]
        simp
      · rw [hsnd] at hm
        rcases mem_expandNames e.mapping (fnames X1) nm hm with ⟨hin, hunm⟩ | ⟨m, hmm, hgen⟩
        · simp only []
          rw [hUN nm hin hunm (fun he => hintx (by rw [← he]; exact hin))]
          exact rect_getCol X1 n nm hrect1 hin
        · obtain ⟨i, hi, hgeq⟩ := List.mem_map.mp hgen
          simp only []
          rw [← hgeq]
          rw [hGEN m hmm i (List.mem_range.mp hi)]
          rw [List.length_map]
          exact rect_getCol X1 n m.1 hrect1 (hsubx m hmm)
    have hcols2 : ∀ nm ∈ fnames X, nm ∉ e.mapping.map Prod.fst → nm ≠ "intercept" →
        getCol (helmert_coding X1 e.mapping) nm = getCol X nm := by
      intro nm hmem hunm hni
      rw [hX2eq]
      rw [getCol_reindex_mem _ _ nm (List.mem_cons.mpr (Or.inr (by
        rw [hsnd]
        exact mem_expand_unmapped e.mapping (fnames X1) nm (by rw [hfn1]; exact hmem) hunm)))]
      rw [hUN nm (by rw [hfn1]; exact hmem) hunm hni]
      rw [hX1def]
      exact getCol_ordinalTransform_ne e.ordinal X nm (by rw [hom]; exact hunm)
    cases hD : (if e.drop_invariant then applyDrop (helmert_coding X1 e.mapping) e.drop_cols
        else .ok (helmert_coding X1 e.mapping)) with
    | error err => rw [hD] at hok; simp at hok
    | ok X3 =>
      rw [hD] at hok
      have hX3 : Rect X3 n ∧
          (∀ nm, nm ∉ e.drop_cols → getCol X3 nm = getCol (helmert_coding X1 e.mapping) nm) := by
        by_cases hdi : e.drop_invariant = true
        · rw [if_pos hdi] at hD
          exact ⟨applyDrop_rect e.drop_cols _ X3 n hD hrect2,
            fun nm hnm => applyDrop_getCol e.drop_cols _ X3 nm hD hnm⟩
        · rw [if_neg hdi] at hD
          simp only [Except.ok.injEq] at hD
          subst hD
          exact ⟨hrect2, fun nm _ => rfl⟩
      cases hrd : e.return_df with
      | false => rw [hrd] at hok; simp at hok
      | true =>
        rw [hrd] at hok
        simp only [if_true, Except.ok.injEq, Sum.inl.injEq] at hok
        subst hok
        constructor
        · exact hX3.1
        · intro nm hmem hunm hni hnd
          rw [hX3.2 nm hnd]
          exact hcols2 nm hmem hunm hni


/-- Witness for C6 at a concrete two-column frame with one mapped column. -/
theorem transform_preserves_rows_witness :
    Rect [("intercept", [Sum.inr 1, Sum.inr 1]), ("A", [Sum.inr 5, Sum.inr 6]),
      ("D_0", [Sum.inr (-1), Sum.inr 1])] 2 ∧
    getCol [("intercept", [Sum.inr 1, Sum.inr 1]), ("A", [Sum.inr 5, Sum.inr 6]),
      ("D_0", [Sum.inr (-1), Sum.inr 1])] "A" =
      getCol [("A", [Sum.inr 5, Sum.inr 6]), ("D", [Sum.inl "a", Sum.inl "b"])] "A" := by
  have h := transform_preserves_rows
    (fitBase ⟨some ["D"], false, true⟩
      [("A", [Sum.inr 5, Sum.inr 6]), ("D", [Sum.inl "a", Sum.inl "b"])])
    [("A", [Sum.inr 5, Sum.inr 6]), ("D", [Sum.inl "a", Sum.inl "b"])] 2
    [("intercept", [Sum.inr 1, Sum.inr 1]), ("A", [Sum.inr 5, Sum.inr 6]),
      ("D_0", [Sum.inr (-1), Sum.inr 1])]
    rfl (by decide) rfl (by decide) (by decide) (by decide) (by decide) (by decide)
    (by decide) (by decide) rfl rfl
  exact ⟨h.1, h.2 "A" (by decide) (by decide) (by decide) (by decide)⟩


/-! Evaluation lemmas for the drop-threshold analysis (claim C1). -/

theorem foAux_cons (a : Val) (l seen : List Val) :
    foAux (a :: l) seen = if seen.any (fun v => decide (v = a)) then foAux l seen
      else a :: foAux l (a :: seen) := rfl

theorem foAux_replicate_mem (n : Nat) (x : Val) (seen : List Val)
    (h : seen.any (fun v => decide (v = x)) = true) :
    foAux (List.replicate n x) seen = [] := by
  induction n with
  | zero => rfl
  | succ n ih =>
    rw [List.replicate_succ, foAux_cons, if_pos h]
    exact ih

theorem foAux_replicate_fresh (n : Nat) (x : Val) (seen : List Val)
    (h : seen.any (fun v => decide (v = x)) = false) :
    foAux (List.replicate (n + 1) x) seen = [x] := by
  rw [List.replicate_succ, foAux_cons]
  rw [if_neg (by simp [h])]
  rw [foAux_replicate_mem n x (x :: seen) (by simp)]

theorem filterMap_replicate_some {α β : Type} (f : α → Option β) (x : α) (y : β)
    (h : f x = some y) (n : Nat) :
    (List.replicate n x).filterMap f = List.replicate n y := by
  induction n with
  | zero => rfl
  | succ n ih => simp [List.replicate_succ, List.filterMap_cons, h, ih]

theorem filterMap_num_cons (q : ℚ) (l : List Val) :
    (Sum.inr q :: l).filterMap toNum = q :: l.filterMap toNum :=
  List.filterMap_cons_some rfl

theorem filterMap_num_replicate (n : Nat) (q : ℚ) :
    (List.replicate n (Sum.inr q : Val)).filterMap toNum = List.replicate n q :=
  filterMap_replicate_some toNum (Sum.inr q) q rfl n

theorem map_replicate_eq {α β : Type} (f : α → β) (x : α) (n : Nat) :
    (List.replicate n x).map f = List.replicate n (f x) := List.map_replicate

theorem sum_replicate_q (n : Nat) (x : ℚ) : (List.replicate n x).sum = n * x := by
  rw [List.sum_replicate, nsmul_eq_mul]

theorem ordinalTransform_cons_found (om : List (String × List (Val × ℚ)))
    (nm : String) (col : Col) (rest : Frame) (m : List (Val × ℚ))
    (h : om.find? (fun q => decide (q.1 = nm)) = some (nm, m)) :
    ordinalTransform om ((nm, col) :: rest)
      = (nm, col.map (fun v => Sum.inr (codeFor m v))) :: ordinalTransform om rest := by
  simp only [ordinalTransform, List.map_cons, h]

theorem firstOccur_C1 :
    firstOccur (Sum.inl "a" :: Sum.inl "b" :: List.replicate 19999 (Sum.inl "c"))
      = [Sum.inl "a", Sum.inl "b", Sum.inl "c"] := by
  rw [firstOccur]
  rw [foAux_cons, if_neg (by simp)]
  rw [foAux_cons, if_neg (by simp)]
  rw [show (19999 : Nat) = 19998 + 1 from by norm_num]
  rw [foAux_replicate_fresh 19998 (Sum.inl "c") _ (by simp)]

theorem ordinalFit_C1 :
    ordinalFit (Sum.inl "a" :: Sum.inl "b" :: List.replicate 19999 (Sum.inl "c"))
      = [(Sum.inl "a", 1), (Sum.inl "b", 2), (Sum.inl "c", 3)] := by
  rw [ordinalFit, firstOccur_C1]
  norm_num [List.enum]

theorem ordinalTransform_C1 : ordinalTransform
      [("D", [(Sum.inl "a", (1 : ℚ)), (Sum.inl "b", 2), (Sum.inl "c", 3)])]
      [("D", Sum.inl "a" :: Sum.inl "b" :: List.replicate 19999 (Sum.inl "c"))]
    = [("D", Sum.inr 1 :: Sum.inr 2 :: List.replicate 19999 (Sum.inr 3))] := by
  rw [ordinalTransform_cons_found
    [("D", [(Sum.inl "a", (1 : ℚ)), (Sum.inl "b", 2), (Sum.inl "c", 3)])]
    "D" (Sum.inl "a" :: Sum.inl "b" :: List.replicate 19999 (Sum.inl "c")) []
    [(Sum.inl "a", (1 : ℚ)), (Sum.inl "b", 2), (Sum.inl "c", 3)] rfl]
  rw [List.map_cons, List.map_cons, List.map_replicate]
  rfl

theorem helmert_coding_D (col : Col) (mod : CMat) (h2 : mod.colNames.length = 2) :
    helmert_coding [("D", col)] [("D", mod)] =
      [("intercept", List.replicate col.length (Sum.inr 1)),
       ("D_0", col.map (fun v => modEntry mod v 0)),
       ("D_1", col.map (fun v => modEntry mod v 1))] := by
  simp only [helmert_coding]
  rw [show nRows [("D", col)] = col.length from rfl]
  rw [show fnames [("D", col)] = ["D"] from by simp [fnames]]
  rw [setCol_absent [("D", col)] "intercept" (List.replicate col.length (Sum.inr 1))
    (by simp [fnames])]
  rw [List.singleton_append]
  rw [List.foldl_cons, List.foldl_nil]
  simp only [addContrast]
  rw [h2]
  rw [show List.range 2 = [0, 1] from rfl]
  rw [show genNames "D" 2 = ["D_0", "D_1"] from rfl]
  rw [List.foldl_cons, List.foldl_cons, List.foldl_nil]
  rw [show getCol [("D", col), ("intercept", List.replicate col.length (Sum.inr 1))] "D"
      = col from by rw [getCol_cons, if_pos rfl]]
  rw [show genName "D" 0 = "D_0" from rfl]
  rw [setCol_absent [("D", col), ("intercept", List.replicate col.length (Sum.inr 1))]
    "D_0" (col.map (fun v => modEntry mod v 0)) (by simp [fnames])]
  rw [List.cons_append, List.singleton_append]
  rw [show getCol [("D", col), ("intercept", List.replicate col.length (Sum.inr 1)),
        ("D_0", col.map (fun v => modEntry mod v 0))] "D" = col from by
    rw [getCol_cons, if_pos rfl]]
  rw [show genName "D" 1 = "D_1" from rfl]
  rw [setCol_absent [("D", col), ("intercept", List.replicate col.length (Sum.inr 1)),
      ("D_0", col.map (fun v => modEntry mod v 0))]
    "D_1" (col.map (fun v => modEntry mod v 1)) (by simp [fnames])]
  rw [List.cons_append, List.cons_append, List.singleton_append]
  rw [show spliceCol ["D"] "D" ["D_0", "D_1"] = ["D_0", "D_1"] from rfl]
  simp only [List.map_cons, List.map_nil]
  rw [show getCol [("D", col), ("intercept", List.replicate col.length (Sum.inr 1)),
        ("D_0", col.map (fun v => modEntry mod v 0)),
        ("D_1", col.map (fun v => modEntry mod v 1))] "intercept"
      = List.replicate col.length (Sum.inr 1) from by
    rw [getCol_cons, if_neg (by decide), getCol_cons, if_pos rfl]]
  rw [show getCol [("D", col), ("intercept", List.replicate col.length (Sum.inr 1)),
        ("D_0", col.map (fun v => modEntry mod v 0)),
        ("D_1", col.map (fun v => modEntry mod v 1))] "D_0"
      = col.map (fun v => modEntry mod v 0) from by
    rw [getCol_cons, if_neg (by decide), getCol_cons, if_neg (by decide), getCol_cons,
      if_pos rfl]]
  rw [show getCol [("D", col), ("intercept", List.replicate col.length (Sum.inr 1)),
        ("D_0", col.map (fun v => modEntry mod v 0)),
        ("D_1", col.map (fun v => modEntry mod v 1))] "D_1"
      = col.map (fun v => modEntry mod v 1) from by
    rw [getCol_cons, if_neg (by decide), getCol_cons, if_neg (by decide), getCol_cons,
      if_neg (by decide), getCol_cons, if_pos rfl]]

theorem helmert_C1 : helmert_coding
      [("D", Sum.inr 1 :: Sum.inr 2 :: List.replicate 19999 (Sum.inr 3))] [("D", M3)]
    = XtC1 := by
  rw [helmert_coding_D (Sum.inr 1 :: Sum.inr 2 :: List.replicate 19999 (Sum.inr 3)) M3 rfl]
  rw [show (Sum.inr 1 :: Sum.inr 2 :: List.replicate 19999 (Sum.inr 3) : Col).length
      = 20001 from by rw [List.length_cons, List.length_cons, List.length_replicate]]
  simp only [List.map_cons, List.map_replicate]
  rfl

theorem var_ones_C1 : pandasVar (List.replicate 20001 (Sum.inr 1) : Col) = some 0 := by
  rw [pandasVar]
  rw [filterMap_num_replicate]
  rw [List.length_replicate]
  rw [if_neg (by norm_num)]
  rw [map_replicate_eq, sum_replicate_q, sum_replicate_q]
  norm_num

theorem var_D0_C1 :
    pandasVar (Sum.inr (-1) :: Sum.inr 1 :: List.replicate 19999 (Sum.inr 0) : Col)
      = some (1 / 10000) := by
  rw [pandasVar]
  rw [filterMap_num_cons, filterMap_num_cons, filterMap_num_replicate]
  rw [List.length_cons, List.length_cons, List.length_replicate]
  rw [if_neg (by norm_num)]
  rw [List.map_cons, List.map_cons, List.map_replicate]
  repeat rw [List.sum_cons]
  repeat rw [sum_replicate_q]
  norm_num

theorem dropFlag_D1_C1 :
    dropFlag (Sum.inr (-1) :: Sum.inr (-1) :: List.replicate 19999 (Sum.inr 2) : Col)
      (10 / 100000) = false := by
  rw [dropFlag]
  rw [pandasVar]
  rw [filterMap_num_cons, filterMap_num_cons, filterMap_num_replicate]
  rw [List.length_cons, List.length_cons, List.length_replicate]
  rw [if_neg (by norm_num)]
  rw [List.map_cons, List.map_cons, List.map_replicate]
  repeat rw [List.sum_cons]
  repeat rw [sum_replicate_q]
  rw [decide_eq_false_iff_not]
  norm_num

theorem fitBase_ordinal_C1 : (fitBase cfgC1 XC1).ordinal
    = [("D", [(Sum.inl "a", (1 : ℚ)), (Sum.inl "b", 2), (Sum.inl "c", 3)])] := by
  rw [show (fitBase cfgC1 XC1).ordinal = [("D", ordinalFit (getCol XC1 "D"))] from rfl]
  rw [show getCol XC1 "D"
      = Sum.inl "a" :: Sum.inl "b" :: List.replicate 19999 (Sum.inl "c") from rfl]
  rw [ordinalFit_C1]

theorem fitBase_mapping_C1 : (fitBase cfgC1 XC1).mapping = [("D", M3)] := by
  rw [show (fitBase cfgC1 XC1).mapping
      = [("D", fit_helmert_coding ((ordinalFit (getCol XC1 "D")).map Prod.snd))] from rfl]
  rw [show getCol XC1 "D"
      = Sum.inl "a" :: Sum.inl "b" :: List.replicate 19999 (Sum.inl "c") from rfl]
  rw [ordinalFit_C1]
  rw [show ([(Sum.inl "a", (1 : ℚ)), (Sum.inl "b", 2), (Sum.inl "c", 3)].map Prod.snd)
      = [1, 2, 3] from rfl]
  rw [show fit_helmert_coding [1, 2, 3] = M3 from by decide]

theorem transform_C1 : transform (fitBase cfgC1 XC1) XC1 = .ok (.inl XtC1) := by
  have hdimf : (fitBase cfgC1 XC1).dim = some 1 := rfl
  have hcolsf : (fitBase cfgC1 XC1).cols = ["D"] := rfl
  have hdif : (fitBase cfgC1 XC1).drop_invariant = true := rfl
  have hdcf : (fitBase cfgC1 XC1).drop_cols = [] := rfl
  have hrdf : (fitBase cfgC1 XC1).return_df = true := rfl
  have hot : ordinalTransform (fitBase cfgC1 XC1).ordinal XC1
      = [("D", Sum.inr 1 :: Sum.inr 2 :: List.replicate 19999 (Sum.inr 3))] := by
    rw [fitBase_ordinal_C1]
    exact ordinalTransform_C1
  simp only [transform, hdimf]
  rw [if_pos (show XC1.length = 1 from rfl)]
  rw [if_neg (show ¬ (fitBase cfgC1 XC1).cols = [] from by rw [hcolsf]; simp)]
  rw [hot, fitBase_mapping_C1, helmert_C1, hdif, hdcf]
  rw [show applyDrop XtC1 [] = .ok XtC1 from rfl]
  rw [if_pos (show (true : Bool) = true from rfl)]
  show Except.ok (if (fitBase cfgC1 XC1).return_df = true then Sum.inl XtC1
    else Sum.inr (valuesOf XtC1)) = Except.ok (Sum.inl XtC1)
  rw [hrdf, if_pos rfl]

theorem fit_C1 : fit cfgC1 XC1 = .ok eC1 := by
  have hflag0 : dropFlag (getCol XtC1 "intercept") (10 / 100000) = true := by
    rw [show getCol XtC1 "intercept" = List.replicate 20001 (Sum.inr 1) from rfl]
    rw [dropFlag, var_ones_C1]
    rw [decide_eq_true_eq]
    norm_num
  have hflag1 : dropFlag (getCol XtC1 "D_0") (10 / 100000) = true := by
    rw [show getCol XtC1 "D_0"
        = Sum.inr (-1) :: Sum.inr 1 :: List.replicate 19999 (Sum.inr 0) from rfl]
    rw [dropFlag, var_D0_C1]
    rw [decide_eq_true_eq]
    norm_num
  have hflag2 : dropFlag (getCol XtC1 "D_1") (10 / 100000) = false := by
    rw [show getCol XtC1 "D_1"
        = Sum.inr (-1) :: Sum.inr (-1) :: List.replicate 19999 (Sum.inr 2) from rfl]
    exact dropFlag_D1_C1
  have hgenc : generatedCols XC1 XtC1 = ["intercept", "D_0", "D_1"] := rfl
  simp only [fit]
  rw [if_pos (show cfgC1.drop_invariant = true from rfl)]
  rw [transform_C1]
  show Except.ok { fitBase cfgC1 XC1 with
    drop_cols := (generatedCols XC1 XtC1).filter
      (fun g => dropFlag (getCol XtC1 g) (10 / 100000)) } = Except.ok eC1
  rw [hgenc]
  simp only [List.filter_cons, List.filter_nil]
  rw [hflag0, hflag1, hflag2]
  rfl


/-- Counterexample to claim C1 as stated: on `XC1` the generated column D_0
has sample variance exactly 1/10000 over the trial-transformed frame, which
is strictly greater than 1e-5, yet fit adds it to the drop list — the
source compares against the literal 10e-5 = 1e-4 (helmert.py line 151). -/
theorem drop_threshold_counterexample :
    fit cfgC1 XC1 = .ok eC1 ∧
    transform (fitBase cfgC1 XC1) XC1 = .ok (.inl XtC1) ∧
    "D_0" ∈ eC1.drop_cols ∧
    pandasVar (getCol XtC1 "D_0") = some (1 / 10000) ∧
    ¬ ((1 : ℚ) / 10000 ≤ 1 / 100000) := by
  refine ⟨fit_C1, transform_C1, ?_, ?_, by norm_num⟩
  · rw [show eC1.drop_cols = ["intercept", "D_0"] from rfl]
    simp
  · rw [show getCol XtC1 "D_0"
        = Sum.inr (-1) :: Sum.inr 1 :: List.replicate 19999 (Sum.inr 0) from rfl]
    exact var_D0_C1

/-- Claim C1 (amended): with invariant dropping enabled, a generated column
is added to the drop list iff its sample variance over the
trial-transformed frame is at most 1e-4 (the source literal `10e-5`), not
1e-5. -/
theorem drop_list_iff_var_le_1e4 (cfg : Config) (X Xt : Frame) (e : Encoder) (g : String)
    (hd : cfg.drop_invariant = true)
    (ht : transform (fitBase cfg X) X = .ok (.inl Xt))
    (he : fit cfg X = .ok e) :
    g ∈ e.drop_cols ↔
      g ∈ generatedCols X Xt ∧ dropFlag (getCol Xt g) (10 / 100000) = true := by
  simp only [fit] at he
  rw [if_pos hd] at he
  rw [ht] at he
  simp only [Except.ok.injEq] at he
  subst he
  rw [show ({ fitBase cfg X with
      drop_cols := (generatedCols X Xt).filter
        (fun g => dropFlag (getCol Xt g) (10 / 100000)) } : Encoder).drop_cols
    = (generatedCols X Xt).filter (fun g => dropFlag (getCol Xt g) (10 / 100000)) from rfl]
  rw [List.mem_filter]

theorem fit_W1 : fit cfgW1 XW1 = .ok eW1 := by
  have hvar1 : pandasVar (getCol XtW1 "intercept") = some 0 := by
    rw [show getCol XtW1 "intercept" = [Sum.inr 1, Sum.inr 1] from rfl]
    rw [pandasVar]
    rw [filterMap_num_cons, filterMap_num_cons]
    rw [show (([] : List Val).filterMap toNum) = [] from rfl]
    norm_num
  have hflag0 : dropFlag (getCol XtW1 "intercept") (10 / 100000) = true := by
    rw [dropFlag, hvar1, decide_eq_true_eq]
    norm_num
  have hvar2 : pandasVar (getCol XtW1 "D_0") = some 2 := by
    rw [show getCol XtW1 "D_0" = [Sum.inr (-1), Sum.inr 1] from rfl]
    rw [pandasVar]
    rw [filterMap_num_cons, filterMap_num_cons]
    rw [show (([] : List Val).filterMap toNum) = [] from rfl]
    norm_num
  have hflag1 : dropFlag (getCol XtW1 "D_0") (10 / 100000) = false := by
    rw [dropFlag, hvar2, decide_eq_false_iff_not]
    norm_num
  have htrW : transform (fitBase cfgW1 XW1) XW1 = .ok (.inl XtW1) := rfl
  simp only [fit]
  rw [if_pos (show cfgW1.drop_invariant = true from rfl)]
  rw [htrW]
  show Except.ok { fitBase cfgW1 XW1 with
    drop_cols := (generatedCols XW1 XtW1).filter
      (fun g => dropFlag (getCol XtW1 g) (10 / 100000)) } = Except.ok eW1
  rw [show generatedCols XW1 XtW1 = ["intercept", "D_0"] from rfl]
  simp only [List.filter_cons, List.filter_nil]
  rw [hflag0, hflag1]
  rfl

/-- Witness for C1 at a small two-level fit where only the constant
intercept column is dropped. -/
theorem drop_list_iff_var_le_1e4_witness :
    "intercept" ∈ eW1.drop_cols ↔
      ("intercept" ∈ generatedCols XW1 XtW1 ∧
       dropFlag (getCol XtW1 "intercept") (10 / 100000) = true) :=
  drop_list_iff_var_le_1e4 cfgW1 XW1 XtW1 eW1 "intercept" rfl rfl fit_W1

end Helmert
